import Mathlib

/-!
# Verification of `pkg/util/metric/hdrhistogram.go`

A shallow embedding of the `HdrHistogram` metric wrapper from CockroachDB's
`pkg/util/metric` package, together with proofs about its observable behavior.

The wrapper orchestrates an external bucketed-histogram primitive
(`github.com/codahale/hdrhistogram`), which the design documentation treats as a
correct black box over the value range `[0, maxVal]` supporting record, merge,
distribution-as-bars, count and mean.  We embed that primitive as an exact
distribution: a record of its trackable bounds plus the list of recorded
samples (the primitive's lossy bucketing affects only precision, not any of the
orchestration behavior verified here).  Machine `float64` arithmetic in the
exposition encoder is modelled exactly over `ℚ`; the `uint64` cumulative
counter is modelled as `Nat` reduced `% 2 ^ 64` where the code adds to it.
-/

namespace HdrSpec

/-- Metric metadata: opaque identity/description fields, passed through
unchanged by the histogram.  Only its presence matters here. -/
structure Metadata where
  name : String
deriving DecidableEq

/-- Embedding of the external `hdrhistogram.Histogram` primitive
(`github.com/codahale/hdrhistogram`): a bounded distribution over
`[lowestTrackableValue, highestTrackableValue]`.  We keep the exact list of
recorded samples; `RecordValue` fails (returns `none`) exactly when the value
lies outside the trackable range, as the library does for a histogram created
with `New(lowest, highest, sigFigs)`. -/
structure BDistribution where
  lowestTrackableValue : Int
  highestTrackableValue : Int
  samples : List Int
deriving DecidableEq

/-- `Histogram.RecordValue` of the external primitive: errors (returns `none`)
iff the value is outside the trackable range, otherwise stores one sample. -/
def BDistribution.RecordValue (d : BDistribution) (v : Int) : Option BDistribution :=
  if v < d.lowestTrackableValue ∨ d.highestTrackableValue < v then none
  else some { d with samples := d.samples ++ [v] }

/-- `Histogram.TotalCount` of the external primitive. -/
def BDistribution.TotalCount (d : BDistribution) : Nat :=
  d.samples.length

/-- `Histogram.Mean` of the external primitive, modelled exactly: the mean of
the recorded samples, `0` for an empty histogram. -/
def BDistribution.Mean (d : BDistribution) : ℚ :=
  ((d.samples.map (fun x => (x : ℚ))).sum) / (d.samples.length : ℚ)

/-- `Histogram.Reset` of the external primitive: clears the recorded samples,
keeping the configured bounds. -/
def BDistribution.Reset (d : BDistribution) : BDistribution :=
  { d with samples := [] }

/-- A bar of `Histogram.Distribution()`: a `(From, To, Count)` bucket of the
primitive's bucket decomposition, ordered by ascending bounds. -/
structure Bar where
  barFrom : Int
  To : Int
  Count : Nat
deriving DecidableEq

/-- `Histogram.Distribution()` of the external primitive: the bars of the
distribution in ascending order of upper bound.  The exact embedding has one
bar per representable value in the trackable range, carrying the multiplicity
of that value among the recorded samples (bars with zero count included, as in
the library). -/
def BDistribution.Distribution (d : BDistribution) : List Bar :=
  (List.range (d.highestTrackableValue - d.lowestTrackableValue + 1).toNat).map
    (fun i : Nat =>
      { barFrom := d.lowestTrackableValue + (i : Int)
        To := d.lowestTrackableValue + (i : Int)
        Count := d.samples.count (d.lowestTrackableValue + (i : Int)) })

/-- Embedding of the external `hdrhistogram.WindowedHistogram`: a fixed ring
of sub-histograms plus the index `n` of the current write target. -/
structure WindowedHistogram where
  histograms : List BDistribution
  n : Nat
deriving DecidableEq

/-- The current write target of the ring, `w.histograms[w.n]`. -/
def WindowedHistogram.Current (w : WindowedHistogram) : BDistribution :=
  w.histograms.getD w.n ⟨0, 0, []⟩

/-- `WindowedHistogram.Rotate` of the external primitive: advance the index
and reset the slot it now points at, which becomes the current write target. -/
def WindowedHistogram.Rotate (w : WindowedHistogram) : WindowedHistogram :=
  let m := (w.n + 1) % w.histograms.length
  { histograms := w.histograms.set m ((w.histograms.getD m ⟨0, 0, []⟩).Reset)
    n := m }

/-- `WindowedHistogram.Merge` of the external primitive: a transient
distribution holding the union of the samples of all ring slots, over the
current slot's trackable bounds. -/
def WindowedHistogram.Merge (w : WindowedHistogram) : BDistribution :=
  { lowestTrackableValue := w.Current.lowestTrackableValue
    highestTrackableValue := w.Current.highestTrackableValue
    samples := w.histograms.flatMap (fun d => d.samples) }

/-- Modelled from the spec: the state of `tick.Ticker`
(`pkg/util/metric/tick`, not part of the sources under verification) — the
timestamp of the last rotation and the sub-window duration. -/
structure Ticker where
  lastTick : Int
  interval : Int
deriving DecidableEq

/-- State of a `HdrHistogram` (`pkg/util/metric/hdrhistogram.go`): metadata,
the clamp ceiling `maxVal`, the cumulative distribution, the sliding windowed
ring and the rotation ticker, all guarded by one mutex in the source. -/
structure HdrHistogram where
  metadata : Metadata
  maxVal : Int
  cumulative : BDistribution
  sliding : WindowedHistogram
  ticker : Ticker
deriving DecidableEq

/-- Modelled from the spec: `WindowedHistogramWrapNum`, the fixed number `W`
of sub-windows of the sliding ring (declared elsewhere in `pkg/util/metric`,
not part of the sources under verification); the spec fixes it as a small
constant, e.g. `2`. -/
def WindowedHistogramWrapNum : Nat := 2

/-- `NewHdrHistogram` (lines 56–73): builds the cumulative histogram and the
windowed ring over `[0, maxVal]` and a ticker of period
`duration / WindowedHistogramWrapNum` starting at `now`.  The source performs
no validation of the configuration and has no failure path. -/
def NewHdrHistogram (metadata : Metadata) (now duration maxVal : Int) :
    HdrHistogram :=
  { metadata := metadata
    maxVal := maxVal
    cumulative := ⟨0, maxVal, []⟩
    sliding := ⟨List.replicate WindowedHistogramWrapNum ⟨0, maxVal, []⟩, 0⟩
    ticker := ⟨now, duration / (WindowedHistogramWrapNum : Int)⟩ }

/-- Modelled from the spec: `tick.MaybeTick` (`pkg/util/metric/tick`, not part
of the sources under verification) — if at least one sub-window duration has
elapsed since the last rotation, rotate the ring once and record `now` as the
last-rotation time; otherwise do nothing. -/
def MaybeTick (now : Int) (h : HdrHistogram) : HdrHistogram :=
  if h.ticker.interval ≤ now - h.ticker.lastTick then
    { h with sliding := h.sliding.Rotate
             ticker := { h.ticker with lastTick := now } }
  else h

/-- One record-or-clamp step of `HdrHistogram.RecordValue` (lines 95–100): try
to record `v`; on an out-of-range error, record `maxVal` instead, discarding
any error from that second attempt. -/
def recordOrClamp (d : BDistribution) (v maxVal : Int) : BDistribution :=
  match d.RecordValue v with
  | some d2 => d2
  | none => (d.RecordValue maxVal).getD d

/-- `HdrHistogram.RecordValue` (lines 91–101): records `v` (clamping to
`maxVal` on a range error) into the ring's current slot and into the
cumulative distribution.  No rotation check occurs on write. -/
def HdrHistogram.RecordValue (h : HdrHistogram) (v : Int) : HdrHistogram :=
  { h with
    cumulative := recordOrClamp h.cumulative v h.maxVal
    sliding := { h.sliding with
      histograms := h.sliding.histograms.set h.sliding.n
        (recordOrClamp h.sliding.Current v h.maxVal) } }

/-- `HdrHistogram.Total` (lines 104–109): the cumulative count and the
approximate cumulative sum `count * mean`.  No rotation check. -/
def HdrHistogram.Total (h : HdrHistogram) : Nat × ℚ :=
  (h.cumulative.TotalCount, (h.cumulative.TotalCount : ℚ) * h.cumulative.Mean)

/-- `HdrHistogram.Inspect` (lines 119–126): performs the lazy rotation check
under the lock, then hands the receiver to the closure.  Its effect on the
histogram state is exactly the rotation check. -/
def HdrHistogram.Inspect (now : Int) (h : HdrHistogram) : HdrHistogram :=
  MaybeTick now h

/-- A bucket of the prometheus exposition record
(`prometheusgo.Bucket`): cumulative count (`uint64`) and upper bound
(`float64`, modelled exactly). -/
structure Bucket where
  CumulativeCount : Nat
  UpperBound : ℚ
deriving DecidableEq

/-- The prometheus exposition record (`prometheusgo.Histogram`). -/
structure PromHistogram where
  SampleCount : Nat
  SampleSum : ℚ
  Bucket : List Bucket
deriving DecidableEq

/-- The exposition-encoding loop shared by `ToPrometheusMetric`
(lines 164–185) and `toPrometheusMetricWindowedLocked` (lines 207–228):
iterate the bars in order, skip bars with zero count, accumulate the running
cumulative count (a `uint64`) and the approximate sum
`upperBound * count`, and emit one bucket per non-zero bar.  Returns the
emitted buckets and the final cumulative count and sum. -/
def encodeBarsAux (cumCount : Nat) (sum : ℚ) :
    List Bar → List Bucket × Nat × ℚ
  | [] => ([], cumCount, sum)
  | bar :: rest =>
    if bar.Count = 0 then encodeBarsAux cumCount sum rest
    else
      let upperBound : ℚ := (bar.To : ℚ)
      let sum2 := sum + upperBound * (bar.Count : ℚ)
      let cum2 := (cumCount + bar.Count) % 2 ^ 64
      let r := encodeBarsAux cum2 sum2 rest
      (⟨cum2, upperBound⟩ :: r.1, r.2)

/-- The exposition record built from a bar list: buckets from the encoding
loop, `SampleCount` the final cumulative count, `SampleSum` the final
approximate sum. -/
def barsToPromHistogram (bars : List Bar) : PromHistogram :=
  { SampleCount := (encodeBarsAux 0 0 bars).2.1
    SampleSum := (encodeBarsAux 0 0 bars).2.2
    Bucket := (encodeBarsAux 0 0 bars).1 }

/-- `HdrHistogram.ToPrometheusMetric` (lines 155–190): under the lock,
performs the lazy rotation check, reads the cumulative distribution's bars and
encodes them.  Returns the post-call state and the exposition record. -/
def HdrHistogram.ToPrometheusMetric (now : Int) (h : HdrHistogram) :
    HdrHistogram × PromHistogram :=
  let h2 := MaybeTick now h
  (h2, barsToPromHistogram h2.cumulative.Distribution)

/-- `HdrHistogram.TotalWindowed` (lines 193–199): merges the ring and returns
the merged count and approximate sum `count * mean`.  The source performs no
rotation check here. -/
def HdrHistogram.TotalWindowed (now : Int) (h : HdrHistogram) :
    HdrHistogram × Nat × ℚ :=
  (h, ((h.sliding.Merge).TotalCount,
       ((h.sliding.Merge).TotalCount : ℚ) * (h.sliding.Merge).Mean))

/-- `HdrHistogram.toPrometheusMetricWindowedLocked` (lines 201–232): performs
the lazy rotation check, merges the ring and encodes the merged bars.
Returns the post-call state and the exposition record. -/
def HdrHistogram.toPrometheusMetricWindowedLocked (now : Int)
    (h : HdrHistogram) : HdrHistogram × PromHistogram :=
  let h2 := MaybeTick now h
  (h2, barsToPromHistogram h2.sliding.Merge.Distribution)

/-- `HdrHistogram.MeanWindowed` (lines 260–265): merges the ring and returns
the merged mean.  The source performs no rotation check here. -/
def HdrHistogram.MeanWindowed (now : Int) (h : HdrHistogram) :
    HdrHistogram × ℚ :=
  (h, (h.sliding.Merge).Mean)

/-- Modelled from the spec: the free function `ValueAtQuantileWindowed`
(declared elsewhere in `pkg/util/metric`, not part of the sources under
verification), to which the method `HdrHistogram.ValueAtQuantileWindowed`
(lines 250–252) delegates — locate the first bucket whose cumulative-count
fraction is at least `q` and return its upper bound; with no samples the
result is zero, not a failure. -/
def ValueAtQuantileWindowed (hist : PromHistogram) (q : ℚ) : ℚ :=
  if hist.SampleCount = 0 then 0
  else
    match hist.Bucket.find?
        (fun b => decide (q ≤ (b.CumulativeCount : ℚ) / (hist.SampleCount : ℚ))) with
    | some b => b.UpperBound
    | none => 0

end HdrSpec

namespace HdrSpec

/-! ## Record / clamp lemmas -/

theorem recordOrClamp_out_of_range (d : BDistribution) (v maxVal : Int)
    (hlo : d.lowestTrackableValue = 0) (hhi : d.highestTrackableValue = maxVal)
    (hv : v < 0 ∨ maxVal < v) :
    recordOrClamp d v maxVal = recordOrClamp d maxVal maxVal := by
  have h1 : v < d.lowestTrackableValue ∨ d.highestTrackableValue < v := by
    rw [hlo, hhi]; exact hv
  unfold recordOrClamp BDistribution.RecordValue
  rw [if_pos h1]
  by_cases h2 : maxVal < d.lowestTrackableValue ∨ d.highestTrackableValue < maxVal
  · rw [if_pos h2]
  · rw [if_neg h2]; rfl

theorem recordOrClamp_bounds (d : BDistribution) (v maxVal : Int) :
    (recordOrClamp d v maxVal).lowestTrackableValue = d.lowestTrackableValue ∧
    (recordOrClamp d v maxVal).highestTrackableValue = d.highestTrackableValue := by
  unfold recordOrClamp BDistribution.RecordValue
  by_cases h1 : v < d.lowestTrackableValue ∨ d.highestTrackableValue < v
  · rw [if_pos h1]
    by_cases h2 : maxVal < d.lowestTrackableValue ∨ d.highestTrackableValue < maxVal
    · rw [if_pos h2]; exact ⟨rfl, rfl⟩
    · rw [if_neg h2]; exact ⟨rfl, rfl⟩
  · rw [if_neg h1]; exact ⟨rfl, rfl⟩

theorem recordOrClamp_length (d : BDistribution) (v maxVal : Int)
    (hlo : d.lowestTrackableValue = 0) (hhi : d.highestTrackableValue = maxVal)
    (hmax : 0 ≤ maxVal) :
    (recordOrClamp d v maxVal).samples.length = d.samples.length + 1 := by
  unfold recordOrClamp BDistribution.RecordValue
  by_cases h1 : v < d.lowestTrackableValue ∨ d.highestTrackableValue < v
  · have h2 : ¬ (maxVal < d.lowestTrackableValue ∨ d.highestTrackableValue < maxVal) := by
      rw [hlo, hhi]; omega
    rw [if_pos h1, if_neg h2]
    simp
  · rw [if_neg h1]
    simp

theorem recordOrClamp_dropped (d : BDistribution) (v maxVal : Int)
    (hlo : d.lowestTrackableValue = 0) (hhi : d.highestTrackableValue = maxVal)
    (hneg : maxVal < 0) :
    recordOrClamp d v maxVal = d := by
  have h1 : v < d.lowestTrackableValue ∨ d.highestTrackableValue < v := by
    rw [hlo, hhi]; omega
  have h2 : maxVal < d.lowestTrackableValue ∨ d.highestTrackableValue < maxVal := by
    rw [hlo, hhi]; omega
  unfold recordOrClamp BDistribution.RecordValue
  rw [if_pos h1, if_pos h2]
  rfl

/-- C1: for every value `v` with `v > maxVal` or `v < 0`, `RecordValue v` has
the same effect on the whole histogram state — cumulative and windowed — as
`RecordValue maxVal`; the out-of-range value is silently clamped to the
maximum, and no error reaches the caller. -/
theorem hdr_recordValue_clamps (h : HdrHistogram) (v : Int)
    (hclo : h.cumulative.lowestTrackableValue = 0)
    (hchi : h.cumulative.highestTrackableValue = h.maxVal)
    (hslo : h.sliding.Current.lowestTrackableValue = 0)
    (hshi : h.sliding.Current.highestTrackableValue = h.maxVal)
    (hv : v < 0 ∨ h.maxVal < v) :
    h.RecordValue v = h.RecordValue h.maxVal := by
  unfold HdrHistogram.RecordValue
  rw [recordOrClamp_out_of_range h.cumulative v h.maxVal hclo hchi hv,
    recordOrClamp_out_of_range h.sliding.Current v h.maxVal hslo hshi hv]

/-- A concrete histogram state used to exercise the theorems: `maxVal = 5`,
one cumulative sample `3`, ring slot `1` holding one sample `3`, ticker of
interval `10` last rotated at time `0`. -/
def exState : HdrHistogram :=
  { metadata := ⟨"m"⟩
    maxVal := 5
    cumulative := ⟨0, 5, [3]⟩
    sliding := ⟨[⟨0, 5, []⟩, ⟨0, 5, [3]⟩], 0⟩
    ticker := ⟨0, 10⟩ }

/-- C1 witness: on `exState` (maximum `5`), recording `7` equals recording
`5`. -/
theorem hdr_recordValue_clamps_witness :
    exState.RecordValue 7 = exState.RecordValue 5 :=
  hdr_recordValue_clamps exState 7 rfl rfl rfl rfl (by decide)

end HdrSpec

namespace HdrSpec

/-! ## Cumulative count lemmas -/

theorem foldl_RecordValue_count (vs : List Int) (h : HdrHistogram)
    (h1 : h.cumulative.lowestTrackableValue = 0)
    (h2 : h.cumulative.highestTrackableValue = h.maxVal)
    (h3 : 0 ≤ h.maxVal) :
    (vs.foldl HdrHistogram.RecordValue h).cumulative.samples.length
      = h.cumulative.samples.length + vs.length := by
  induction vs generalizing h with
  | nil => rfl
  | cons v vs ih =>
    have hb := recordOrClamp_bounds h.cumulative v h.maxVal
    have hlen := recordOrClamp_length h.cumulative v h.maxVal h1 h2 h3
    have hrec := ih (h.RecordValue v) (hb.1.trans h1) (hb.2.trans h2) h3
    rw [List.foldl_cons, hrec]
    have hcv : (h.RecordValue v).cumulative = recordOrClamp h.cumulative v h.maxVal := rfl
    rw [hcv, hlen, List.length_cons]
    omega

/-- C3: along any sequence of `RecordValue` calls made since construction
(with a sane maximum `0 ≤ maxVal`), the count reported by `Total` equals
exactly the number of calls made, and in particular is monotonically
non-decreasing along the sequence. -/
theorem hdr_total_counts_records (md : Metadata) (now duration maxVal : Int)
    (vs : List Int) (hmax : 0 ≤ maxVal) :
    ((vs.foldl HdrHistogram.RecordValue
        (NewHdrHistogram md now duration maxVal)).Total).1 = vs.length ∧
    ∀ k l : Nat, k ≤ l →
      (((vs.take k).foldl HdrHistogram.RecordValue
          (NewHdrHistogram md now duration maxVal)).Total).1
        ≤ (((vs.take l).foldl HdrHistogram.RecordValue
          (NewHdrHistogram md now duration maxVal)).Total).1 := by
  have key : ∀ ws : List Int,
      ((ws.foldl HdrHistogram.RecordValue
        (NewHdrHistogram md now duration maxVal)).Total).1 = ws.length := by
    intro ws
    have := foldl_RecordValue_count ws (NewHdrHistogram md now duration maxVal)
      rfl rfl hmax
    simpa [HdrHistogram.Total, BDistribution.TotalCount, NewHdrHistogram] using this
  refine ⟨key vs, fun k l hkl => ?_⟩
  rw [key (vs.take k), key (vs.take l)]
  simp only [List.length_take]
  omega

/-- C3 witness: after recording `2`, `7` and `-1` on a fresh histogram with
maximum `5`, the cumulative count is `3`. -/
theorem hdr_total_counts_records_witness :
    ((([2, 7, -1] : List Int).foldl HdrHistogram.RecordValue
        (NewHdrHistogram ⟨"m"⟩ 0 100 5)).Total).1 = 3 :=
  (hdr_total_counts_records ⟨"m"⟩ 0 100 5 [2, 7, -1] (by decide)).1

/-! ## Construction: no validation (C8) -/

/-- The construction contract as the spec's fail-fast sentence states it:
reject a misconfigured `maxVal ≤ 0` eagerly at construction, otherwise build
the same state the code builds.  Stated only for comparison with
`NewHdrHistogram`, which is the authority. -/
def NewHdrHistogramChecked (metadata : Metadata) (now duration maxVal : Int) :
    Option HdrHistogram :=
  if maxVal ≤ 0 then none
  else some (NewHdrHistogram metadata now duration maxVal)

theorem foldl_RecordValue_cumulative_dropped (vs : List Int) (h : HdrHistogram)
    (h1 : h.cumulative.lowestTrackableValue = 0)
    (h2 : h.cumulative.highestTrackableValue = h.maxVal)
    (hneg : h.maxVal < 0) :
    (vs.foldl HdrHistogram.RecordValue h).cumulative = h.cumulative := by
  induction vs generalizing h with
  | nil => rfl
  | cons v vs ih =>
    have hc : (h.RecordValue v).cumulative = h.cumulative :=
      recordOrClamp_dropped h.cumulative v h.maxVal h1 h2 hneg
    rw [List.foldl_cons,
      ih (h.RecordValue v) (by rw [hc]; exact h1) (by rw [hc]; exact h2) hneg, hc]

/-- C8 counterexample: with the misconfigured `maxVal = -5` the code does not
reject — `NewHdrHistogram` returns the explicit instance below (its ticker
interval is `100 / 2 = 50`), a subsequent `RecordValue` is tolerated at
runtime (silently dropped), while the spec's fail-fast contract rejects this
same configuration. -/
theorem hdr_new_no_validation_cex :
    NewHdrHistogram ⟨"m"⟩ 0 100 (-5)
      = { metadata := ⟨"m"⟩, maxVal := -5, cumulative := ⟨0, -5, []⟩,
          sliding := ⟨[⟨0, -5, []⟩, ⟨0, -5, []⟩], 0⟩, ticker := ⟨0, 50⟩ } ∧
    (((NewHdrHistogram ⟨"m"⟩ 0 100 (-5)).RecordValue 3).Total).1 = 0 ∧
    NewHdrHistogramChecked ⟨"m"⟩ 0 100 (-5) = none := by
  exact ⟨by decide, by decide, by decide⟩

/-- C8 (amended): construction never rejects a misconfiguration — for every
configuration, including `maxVal < 0`, `NewHdrHistogram` constructs an
instance, and that instance tolerates the bad configuration at runtime: every
subsequent `RecordValue` is silently dropped (both the value and the `maxVal`
fallback are out of the empty trackable range), so the cumulative count stays
`0` and nothing fails. -/
theorem hdr_new_tolerates_misconfig (md : Metadata) (now duration maxVal : Int)
    (vs : List Int) (hneg : maxVal < 0) :
    ((vs.foldl HdrHistogram.RecordValue
        (NewHdrHistogram md now duration maxVal)).Total).1 = 0 := by
  have hd := foldl_RecordValue_cumulative_dropped vs
    (NewHdrHistogram md now duration maxVal) rfl rfl hneg
  show (vs.foldl HdrHistogram.RecordValue
      (NewHdrHistogram md now duration maxVal)).cumulative.samples.length = 0
  rw [hd]
  rfl

/-- C8 witness: a histogram constructed with `maxVal = -5` drops the record of
`3` and reports a cumulative count of `0`. -/
theorem hdr_new_tolerates_misconfig_witness :
    ((([3] : List Int).foldl HdrHistogram.RecordValue
        (NewHdrHistogram ⟨"m"⟩ 0 100 (-5))).Total).1 = 0 :=
  hdr_new_tolerates_misconfig ⟨"m"⟩ 0 100 (-5) [3] (by decide)

end HdrSpec

namespace HdrSpec

/-! ## Windowed reads and the rotation check (C2, C9) -/

/-- The behavior the spec ascribes to `TotalWindowed`, stated from the spec's
words: first perform the lazy rotation check, then merge the ring, then
compute over the merged distribution.  Stated only for comparison with
`HdrHistogram.TotalWindowed`, which is the authority. -/
def TotalWindowedTicking (now : Int) (h : HdrHistogram) :
    HdrHistogram × Nat × ℚ :=
  let h2 := MaybeTick now h
  (h2, (h2.sliding.Merge.TotalCount,
        (h2.sliding.Merge.TotalCount : ℚ) * h2.sliding.Merge.Mean))

/-- The behavior the spec ascribes to `MeanWindowed`, stated from the spec's
words: first perform the lazy rotation check, then merge the ring, then
compute the mean of the merged distribution.  Stated only for comparison with
`HdrHistogram.MeanWindowed`, which is the authority. -/
def MeanWindowedTicking (now : Int) (h : HdrHistogram) : HdrHistogram × ℚ :=
  let h2 := MaybeTick now h
  (h2, h2.sliding.Merge.Mean)

/-- C2 counterexample: at time `50` on `exState` a rotation is due (interval
`10`, last rotation at `0`), yet `TotalWindowed` returns the count of the
un-rotated ring (`1`) where the spec's tick-first behavior returns `0`, and
`MeanWindowed` leaves the state untouched where the tick-first behavior
rotates the ring and advances the last-rotation time to `50`. -/
theorem hdr_windowed_reads_no_tick_cex :
    (exState.TotalWindowed 50).2.1 ≠ (TotalWindowedTicking 50 exState).2.1 ∧
    (exState.MeanWindowed 50).1 ≠ (MeanWindowedTicking 50 exState).1 := by
  exact ⟨by decide, by decide⟩

theorem merge_totalCount_eq_sum (w : WindowedHistogram) :
    w.Merge.TotalCount = (w.histograms.map (fun d => d.samples.length)).sum := by
  simp only [WindowedHistogram.Merge, BDistribution.TotalCount,
    List.length_flatMap]
  rfl

/-- C2 (amended): `TotalWindowed` and `MeanWindowed` perform no rotation
check at all: whatever the clock says, they leave the histogram state — ring
and ticker included — untouched, and compute directly over the merge of the
ring as it stands (the merged count being the sum of the per-slot counts).
The rotation check is instead performed by `Inspect`, `ToPrometheusMetric`
and `toPrometheusMetricWindowedLocked`. -/
theorem hdr_windowed_reads_merge_without_tick (now : Int) (h : HdrHistogram) :
    (h.TotalWindowed now).1 = h ∧
    (h.MeanWindowed now).1 = h ∧
    (h.TotalWindowed now).2.1
      = (h.sliding.histograms.map (fun d => d.samples.length)).sum := by
  exact ⟨rfl, rfl, merge_totalCount_eq_sum h.sliding⟩

theorem maybeTick_cumulative (now : Int) (h : HdrHistogram) :
    (MaybeTick now h).cumulative = h.cumulative := by
  unfold MaybeTick
  split <;> rfl

/-- C9: `Inspect` and the cumulative exporter `ToPrometheusMetric` perform
the lazy rotation check: both have exactly the same state effect, which
rotates the windowed ring and advances the last-rotation timestamp precisely
when a rotation is due, while the cumulative distribution — the only data
either call reads — is unchanged by the call. -/
theorem hdr_inspect_export_tick_frame (now : Int) (h : HdrHistogram) :
    (h.Inspect now).cumulative = h.cumulative ∧
    (h.ToPrometheusMetric now).1 = h.Inspect now ∧
    (h.ticker.interval ≤ now - h.ticker.lastTick →
      (h.Inspect now).sliding = h.sliding.Rotate ∧
      (h.Inspect now).ticker.lastTick = now) ∧
    (¬ h.ticker.interval ≤ now - h.ticker.lastTick → h.Inspect now = h) := by
  refine ⟨maybeTick_cumulative now h, rfl, ?_, ?_⟩
  · intro hdue
    unfold HdrHistogram.Inspect MaybeTick
    rw [if_pos hdue]
    exact ⟨rfl, rfl⟩
  · intro hdue
    unfold HdrHistogram.Inspect MaybeTick
    rw [if_neg hdue]

/-- C9 witness: at time `50` on `exState` a rotation is due, and `Inspect`
indeed rotates the ring and advances the last-rotation time while leaving the
cumulative distribution unchanged. -/
theorem hdr_inspect_export_tick_frame_witness :
    (exState.Inspect 50).sliding = exState.sliding.Rotate ∧
    (exState.Inspect 50).ticker.lastTick = 50 ∧
    (exState.Inspect 50).cumulative = exState.cumulative :=
  ⟨((hdr_inspect_export_tick_frame 50 exState).2.2.1 (by decide)).1,
   ((hdr_inspect_export_tick_frame 50 exState).2.2.1 (by decide)).2,
   (hdr_inspect_export_tick_frame 50 exState).1⟩

end HdrSpec

namespace HdrSpec

/-! ## Window eviction (C6) -/

theorem rotate_length (w : WindowedHistogram) :
    (WindowedHistogram.Rotate w).histograms.length = w.histograms.length := by
  simp [WindowedHistogram.Rotate]

theorem rotate_iter_length (k : Nat) (w : WindowedHistogram) :
    ((WindowedHistogram.Rotate)^[k] w).histograms.length
      = w.histograms.length := by
  induction k generalizing w with
  | zero => rfl
  | succ k ih =>
    rw [Function.iterate_succ_apply, ih, rotate_length]

/-- Slot `i` of the ring holds no samples. -/
def slotEmpty (w : WindowedHistogram) (i : Nat) : Prop :=
  (w.histograms.getD i ⟨0, 0, []⟩).samples = []

theorem rotate_preserves_empty (w : WindowedHistogram) (i : Nat)
    (h : slotEmpty w i) : slotEmpty (WindowedHistogram.Rotate w) i := by
  unfold slotEmpty WindowedHistogram.Rotate at *
  simp only [List.getD_eq_getElem?_getD, List.getElem?_set] at *
  by_cases he : (w.n + 1) % w.histograms.length = i
  · simp only [he, if_pos rfl]
    by_cases hi : i < w.histograms.length
    · simp [hi, BDistribution.Reset]
    · simp only [hi, if_neg, ite_false]
      simp
  · simp only [he, ite_false]
    exact h

theorem rotate_iter_preserves_empty (k : Nat) (w : WindowedHistogram) (i : Nat)
    (h : slotEmpty w i) : slotEmpty ((WindowedHistogram.Rotate)^[k] w) i := by
  induction k generalizing w with
  | zero => exact h
  | succ k ih =>
    rw [Function.iterate_succ_apply]
    exact ih _ (rotate_preserves_empty w i h)

theorem rotate_empties_next (w : WindowedHistogram)
    (hpos : 0 < w.histograms.length) :
    slotEmpty (WindowedHistogram.Rotate w) ((w.n + 1) % w.histograms.length) := by
  unfold slotEmpty WindowedHistogram.Rotate
  have hm : (w.n + 1) % w.histograms.length < w.histograms.length :=
    Nat.mod_lt _ hpos
  simp [List.getD_eq_getElem?_getD, List.getElem?_set, hm, BDistribution.Reset]

theorem rotate_n (w : WindowedHistogram) :
    (WindowedHistogram.Rotate w).n = (w.n + 1) % w.histograms.length := rfl

theorem rotate_iter_empties (k : Nat) :
    ∀ (w : WindowedHistogram), 0 < w.histograms.length →
      ∀ i m : Nat, 1 ≤ m → m ≤ k →
        (w.n + m) % w.histograms.length = i →
        slotEmpty ((WindowedHistogram.Rotate)^[k] w) i := by
  induction k with
  | zero =>
    intro w hpos i m h1 h2 h3
    omega
  | succ k ih =>
    intro w hpos i m h1 h2 h3
    rw [Function.iterate_succ_apply]
    rcases Nat.lt_or_ge m 2 with hm | hm
    · have hm1 : m = 1 := by omega
      subst hm1
      apply rotate_iter_preserves_empty
      rw [← h3]
      exact rotate_empties_next w hpos
    · apply ih (WindowedHistogram.Rotate w)
        (by rw [rotate_length]; exact hpos) i (m - 1) (by omega) (by omega)
      rw [rotate_n, rotate_length, Nat.mod_add_mod]
      rw [← h3]
      congr 1
      omega

theorem rotate_full_cycle_empties (w : WindowedHistogram)
    (hn : w.n < w.histograms.length) :
    ∀ i, i < w.histograms.length →
      slotEmpty ((WindowedHistogram.Rotate)^[w.histograms.length] w) i := by
  intro i hi
  have hpos : 0 < w.histograms.length := Nat.lt_of_le_of_lt (Nat.zero_le _) hi
  rcases Nat.lt_or_ge w.n i with hni | hni
  · exact rotate_iter_empties _ w hpos i (i - w.n) (by omega) (by omega)
      (by rw [show w.n + (i - w.n) = i by omega]; exact Nat.mod_eq_of_lt hi)
  · refine rotate_iter_empties _ w hpos i (w.histograms.length + i - w.n)
      (by omega) (by omega) ?_
    rw [show w.n + (w.histograms.length + i - w.n)
        = w.histograms.length + i by omega]
    rw [Nat.add_mod_left]
    exact Nat.mod_eq_of_lt hi

/-- C6: after `W` full rotations — one per slot of the ring — with no
intervening `RecordValue` calls, every slot of the ring has been cleared, so
the windowed merge contains no old sample and `TotalWindowed` reports a count
of `0`: samples older than `W` sub-window-durations are excluded. -/
theorem hdr_window_eviction (now : Int) (h : HdrHistogram)
    (hn : h.sliding.n < h.sliding.histograms.length) :
    (HdrHistogram.TotalWindowed now
      { h with sliding :=
          (WindowedHistogram.Rotate)^[h.sliding.histograms.length] h.sliding }).2.1
      = 0 := by
  have hall := rotate_full_cycle_empties h.sliding hn
  show ((WindowedHistogram.Rotate)^[h.sliding.histograms.length]
      h.sliding).Merge.TotalCount = 0
  rw [merge_totalCount_eq_sum]
  apply List.sum_eq_zero
  intro x hx
  rcases List.mem_map.mp hx with ⟨d, hd, rfl⟩
  rcases List.getElem_of_mem hd with ⟨i, hilt, hieq⟩
  have hiW : i < h.sliding.histograms.length := by
    rwa [rotate_iter_length] at hilt
  have hempty := hall i hiW
  unfold slotEmpty at hempty
  rw [List.getD_eq_getElem?_getD] at hempty
  rw [← hieq]
  simp only [List.getElem?_eq_getElem hilt, Option.getD_some] at hempty
  simp [hempty]

/-- C6 witness: rotating `exState`'s two-slot ring twice empties it; the
windowed count is `0`. -/
theorem hdr_window_eviction_witness :
    (HdrHistogram.TotalWindowed 0
      { exState with sliding :=
          ((WindowedHistogram.Rotate)^[exState.sliding.histograms.length]
            exState.sliding) }).2.1 = 0 :=
  hdr_window_eviction 0 exState (by decide)

end HdrSpec

namespace HdrSpec

/-! ## Exposition encoder lemmas (C4, C5) -/

theorem encodeBarsAux_map_ub (bars : List Bar) :
    ∀ (c : Nat) (s : ℚ),
      ((encodeBarsAux c s bars).1.map Bucket.UpperBound)
        = (bars.filter (fun b => b.Count != 0)).map (fun b => (b.To : ℚ)) := by
  induction bars with
  | nil => intro c s; rfl
  | cons bar rest ih =>
    intro c s
    by_cases h : bar.Count = 0
    · simp only [encodeBarsAux, if_pos h, List.filter_cons, h]
      simp [ih]
    · simp only [encodeBarsAux, if_neg h, List.filter_cons]
      simp [h, ih]

theorem encodeBarsAux_sum (bars : List Bar) :
    ∀ (c : Nat) (s : ℚ),
      (encodeBarsAux c s bars).2.2
        = s + ((bars.filter (fun b => b.Count != 0)).map
            (fun b => (b.To : ℚ) * (b.Count : ℚ))).sum := by
  induction bars with
  | nil => intro c s; simp [encodeBarsAux]
  | cons bar rest ih =>
    intro c s
    by_cases h : bar.Count = 0
    · simp [encodeBarsAux, h, ih]
    · simp [encodeBarsAux, h, ih]
      ring

theorem encodeBarsAux_mem_cum (bars : List Bar) :
    ∀ (c : Nat) (s : ℚ), c + (bars.map Bar.Count).sum < 2 ^ 64 →
      ∀ b ∈ (encodeBarsAux c s bars).1,
        c < b.CumulativeCount ∧
        b.CumulativeCount ≤ c + (bars.map Bar.Count).sum := by
  induction bars with
  | nil => intro c s hS b hb; simp [encodeBarsAux] at hb
  | cons bar rest ih =>
    intro c s hS b hb
    rw [List.map_cons, List.sum_cons] at hS ⊢
    by_cases h : bar.Count = 0
    · simp only [encodeBarsAux, if_pos h] at hb
      have := ih c s (by omega) b hb
      omega
    · have hlt : c + bar.Count < 2 ^ 64 := by
        have := (rest.map Bar.Count).sum.zero_le
        omega
      simp only [encodeBarsAux, if_neg h, Nat.mod_eq_of_lt hlt] at hb
      rcases List.mem_cons.mp hb with rfl | hb2
      · refine ⟨?_, ?_⟩
        · show c < c + bar.Count
          omega
        · show c + bar.Count ≤ c + (bar.Count + (rest.map Bar.Count).sum)
          omega
      · have := ih (c + bar.Count) _ (by omega) b hb2
        omega

theorem encodeBarsAux_cum_pairwise (bars : List Bar) :
    ∀ (c : Nat) (s : ℚ), c + (bars.map Bar.Count).sum < 2 ^ 64 →
      ((encodeBarsAux c s bars).1.map Bucket.CumulativeCount).Pairwise
        (· < ·) := by
  induction bars with
  | nil => intro c s hS; simp [encodeBarsAux]
  | cons bar rest ih =>
    intro c s hS
    rw [List.map_cons, List.sum_cons] at hS
    by_cases h : bar.Count = 0
    · simp only [encodeBarsAux, if_pos h]
      exact ih c s (by omega)
    · have hlt : c + bar.Count < 2 ^ 64 := by omega
      simp only [encodeBarsAux, if_neg h, Nat.mod_eq_of_lt hlt]
      rw [List.map_cons, List.pairwise_cons]
      constructor
      · intro x hx
        rcases List.mem_map.mp hx with ⟨b, hb, rfl⟩
        have := (encodeBarsAux_mem_cum rest (c + bar.Count) _
          (by omega) b hb).1
        exact this
      · exact ih (c + bar.Count) _ (by omega)

theorem encodeBarsAux_nil_cum (bars : List Bar) :
    ∀ (c : Nat) (s : ℚ), (encodeBarsAux c s bars).1 = [] →
      (encodeBarsAux c s bars).2.1 = c := by
  induction bars with
  | nil => intro c s _; rfl
  | cons bar rest ih =>
    intro c s hnil
    by_cases h : bar.Count = 0
    · simp only [encodeBarsAux, if_pos h] at hnil ⊢
      exact ih c s hnil
    · simp only [encodeBarsAux, if_neg h] at hnil
      exact absurd hnil (by simp)

theorem encodeBarsAux_getLast (bars : List Bar) :
    ∀ (c : Nat) (s : ℚ) (b : Bucket),
      (encodeBarsAux c s bars).1.getLast? = some b →
      b.CumulativeCount = (encodeBarsAux c s bars).2.1 := by
  induction bars with
  | nil => intro c s b hb; simp [encodeBarsAux] at hb
  | cons bar rest ih =>
    intro c s b hb
    by_cases h : bar.Count = 0
    · simp only [encodeBarsAux, if_pos h] at hb ⊢
      exact ih c s b hb
    · simp only [encodeBarsAux, if_neg h] at hb ⊢
      cases hrest : (encodeBarsAux ((c + bar.Count) % 2 ^ 64)
          (s + (bar.To : ℚ) * (bar.Count : ℚ)) rest).1 with
      | nil =>
        rw [hrest] at hb
        simp only [List.getLast?_singleton, Option.some_inj] at hb
        rw [encodeBarsAux_nil_cum rest _ _ hrest, ← hb]
      | cons y ys =>
        rw [hrest, List.getLast?_cons_cons] at hb
        apply ih
        rw [hrest]
        exact hb

theorem barsToPromHistogram_ub_pairwise (bars : List Bar)
    (hasc : bars.Pairwise (fun a b => a.To < b.To)) :
    ((barsToPromHistogram bars).Bucket.map Bucket.UpperBound).Pairwise
      (· < ·) := by
  show ((encodeBarsAux 0 0 bars).1.map Bucket.UpperBound).Pairwise (· < ·)
  rw [encodeBarsAux_map_ub]
  exact List.Pairwise.map _ (fun a b hab => by exact_mod_cast hab)
    (List.Pairwise.filter _ hasc)

/-- Well-formedness of an exposition record, as C4 states it: bucket list
strictly ascending in upper bound, cumulative counts non-decreasing along
that order, and the final bucket's cumulative count equal to the record's
sample count. -/
def encOK (m : PromHistogram) : Prop :=
  (m.Bucket.map Bucket.UpperBound).Pairwise (· < ·) ∧
  (m.Bucket.map Bucket.CumulativeCount).Pairwise (· ≤ ·) ∧
  ∀ b : Bucket, m.Bucket.getLast? = some b →
    b.CumulativeCount = m.SampleCount

theorem barsToPromHistogram_encOK (bars : List Bar)
    (hasc : bars.Pairwise (fun a b => a.To < b.To))
    (hS : (bars.map Bar.Count).sum < 2 ^ 64) :
    encOK (barsToPromHistogram bars) := by
  refine ⟨barsToPromHistogram_ub_pairwise bars hasc, ?_, ?_⟩
  · exact List.Pairwise.imp (fun hab => le_of_lt hab)
      (encodeBarsAux_cum_pairwise bars 0 0 (by omega))
  · intro b hb
    exact encodeBarsAux_getLast bars 0 0 b hb

end HdrSpec

namespace HdrSpec

/-! ## Distribution bars: order and total count -/

theorem distribution_pairwise (d : BDistribution) :
    d.Distribution.Pairwise (fun a b => a.To < b.To) := by
  unfold BDistribution.Distribution
  refine List.Pairwise.map _ ?_ (List.pairwise_lt_range _)
  intro i j hij
  show d.lowestTrackableValue + (i : Int) < d.lowestTrackableValue + (j : Int)
  omega

theorem sum_indicator_range (x lo : Int) (n : Nat) :
    ((List.range n).map
        (fun i : Nat => if x = lo + (i : Int) then 1 else 0)).sum
      = if lo ≤ x ∧ x < lo + (n : Int) then 1 else 0 := by
  induction n with
  | zero =>
    simp only [List.range_zero, List.map_nil, List.sum_nil]
    rw [if_neg (by omega)]
  | succ n ih =>
    rw [List.range_succ, List.map_append, List.sum_append, ih]
    simp only [List.map_cons, List.map_nil, List.sum_cons, List.sum_nil,
      Nat.add_zero]
    push_cast
    split_ifs <;> omega

theorem sum_map_add_nat {α : Type} (l : List α) (f g : α → Nat) :
    (l.map (fun i => f i + g i)).sum = (l.map f).sum + (l.map g).sum := by
  induction l with
  | nil => rfl
  | cons a l ih =>
    simp only [List.map_cons, List.sum_cons, ih]
    omega

theorem sum_count_le (samples : List Int) (lo : Int) (n : Nat) :
    ((List.range n).map (fun i : Nat => samples.count (lo + (i : Int)))).sum
      ≤ samples.length := by
  induction samples with
  | nil => simp
  | cons y ys ih =>
    have hstep : ((List.range n).map
          (fun i : Nat => (y :: ys).count (lo + (i : Int)))).sum
        = ((List.range n).map
            (fun i : Nat => ys.count (lo + (i : Int)))).sum
          + ((List.range n).map
              (fun i : Nat => if y = lo + (i : Int) then 1 else 0)).sum := by
      rw [← sum_map_add_nat]
      congr 1
      apply List.map_congr_left
      intro i _
      rw [List.count_cons]
      congr 1
      simp [beq_iff_eq]
    rw [hstep, sum_indicator_range]
    have hind : (if lo ≤ y ∧ y < lo + (n : Int) then (1 : Nat) else 0) ≤ 1 := by
      split_ifs <;> omega
    simp only [List.length_cons]
    omega

theorem distribution_counts_le (d : BDistribution) :
    (d.Distribution.map Bar.Count).sum ≤ d.samples.length := by
  unfold BDistribution.Distribution
  rw [List.map_map]
  exact sum_count_le d.samples d.lowestTrackableValue _

/-- C4: every exposition record produced by `ToPrometheusMetric`, and by the
windowed `toPrometheusMetricWindowedLocked`, has its bucket list ordered by
strictly increasing upper bound with non-decreasing cumulative counts along
that order, and its final bucket's cumulative count equals the record's
sample count (granted the recorded samples fit the `uint64` accumulator,
which `int64` library counts always do). -/
theorem hdr_exposition_wellformed (now : Int) (h : HdrHistogram)
    (h1 : h.cumulative.samples.length < 2 ^ 64)
    (h2 : ((MaybeTick now h).sliding.Merge).samples.length < 2 ^ 64) :
    encOK (h.ToPrometheusMetric now).2 ∧
    encOK (h.toPrometheusMetricWindowedLocked now).2 := by
  constructor
  · show encOK (barsToPromHistogram (MaybeTick now h).cumulative.Distribution)
    apply barsToPromHistogram_encOK _ (distribution_pairwise _)
    rw [maybeTick_cumulative]
    have hle := distribution_counts_le h.cumulative
    omega
  · show encOK (barsToPromHistogram (MaybeTick now h).sliding.Merge.Distribution)
    apply barsToPromHistogram_encOK _ (distribution_pairwise _)
    have hle := distribution_counts_le (MaybeTick now h).sliding.Merge
    omega

/-- C4 witness: both exposition records of `exState` at time `50` are
well-formed. -/
theorem hdr_exposition_wellformed_witness :
    encOK (exState.ToPrometheusMetric 50).2 ∧
    encOK (exState.toPrometheusMetricWindowedLocked 50).2 :=
  hdr_exposition_wellformed 50 exState (by decide) (by decide)

/-- C5: the exposition encoder emits one bucket for exactly the bars whose
count is non-zero, in order — the emitted upper bounds are precisely the
upper bounds of the non-zero-count bars — and the reported sample sum equals
the sum of `upperBound * count` over the emitted bars. -/
theorem hdr_encoder_emits_nonzero_bars (bars : List Bar) :
    (barsToPromHistogram bars).Bucket.map Bucket.UpperBound
      = (bars.filter (fun b => b.Count != 0)).map (fun b => (b.To : ℚ)) ∧
    (barsToPromHistogram bars).SampleSum
      = ((bars.filter (fun b => b.Count != 0)).map
          (fun b => (b.To : ℚ) * (b.Count : ℚ))).sum := by
  constructor
  · exact encodeBarsAux_map_ub bars 0 0
  · show (encodeBarsAux 0 0 bars).2.2 = _
    rw [encodeBarsAux_sum]
    simp

end HdrSpec

namespace HdrSpec

/-! ## Quantile-from-export (C7) -/

theorem mem_of_getLast?_eq_some {α : Type} {l : List α} {b : α}
    (hb : l.getLast? = some b) : b ∈ l := by
  cases l with
  | nil => simp at hb
  | cons a t =>
    rw [List.getLast?_eq_getLast _ (by simp)] at hb
    cases hb
    exact List.getLast_mem _

theorem find_sorted_ub_le (l : List Bucket) (p1 p2 : Bucket → Bool)
    (himp : ∀ b, p2 b = true → p1 b = true)
    (hub : (l.map Bucket.UpperBound).Pairwise (· ≤ ·)) :
    ∀ b1 b2 : Bucket, l.find? p1 = some b1 → l.find? p2 = some b2 →
      b1.UpperBound ≤ b2.UpperBound := by
  induction l with
  | nil => intro b1 b2 h1 _; simp at h1
  | cons a t ih =>
    intro b1 b2 h1 h2
    rw [List.map_cons, List.pairwise_cons] at hub
    by_cases ha2 : p2 a = true
    · rw [List.find?_cons_of_pos _ (himp a ha2)] at h1
      rw [List.find?_cons_of_pos _ ha2] at h2
      cases h1; cases h2
      exact le_refl _
    · rw [List.find?_cons_of_neg _ ha2] at h2
      by_cases ha1 : p1 a = true
      · rw [List.find?_cons_of_pos _ ha1] at h1
        cases h1
        exact hub.1 b2.UpperBound
          (List.mem_map_of_mem _ (List.mem_of_find?_eq_some h2))
      · rw [List.find?_cons_of_neg _ ha1] at h1
        exact ih hub.2 b1 b2 h1 h2

theorem find_of_getLast_sat (l : List Bucket) (p : Bucket → Bool)
    (b : Bucket) (hb : l.getLast? = some b) (hp : p b = true) :
    ∃ b2, l.find? p = some b2 := by
  cases hf : l.find? p with
  | some b2 => exact ⟨b2, rfl⟩
  | none =>
    exact absurd hp (List.find?_eq_none.mp hf b (mem_of_getLast?_eq_some hb))

theorem find_total_eq_getLast (l : List Bucket) (T : Nat)
    (hcum : (l.map Bucket.CumulativeCount).Pairwise (· < ·))
    (p : Bucket → Bool) (hp : ∀ x, p x = true ↔ T ≤ x.CumulativeCount) :
    ∀ b : Bucket, l.getLast? = some b → b.CumulativeCount = T →
      l.find? p = some b := by
  induction l with
  | nil => intro b hb _; simp at hb
  | cons a t ih =>
    intro b hb hbT
    rw [List.map_cons, List.pairwise_cons] at hcum
    cases t with
    | nil =>
      rw [List.getLast?_singleton, Option.some_inj] at hb
      cases hb
      exact List.find?_cons_of_pos _ ((hp a).mpr (by omega))
    | cons y ys =>
      rw [List.getLast?_cons_cons] at hb
      have hmem : b ∈ y :: ys := mem_of_getLast?_eq_some hb
      have hlt : a.CumulativeCount < b.CumulativeCount :=
        hcum.1 b.CumulativeCount (List.mem_map_of_mem _ hmem)
      rw [List.find?_cons_of_neg _ (by rw [hp]; omega)]
      exact ih hcum.2 b hb hbT

theorem getLast_ub_max (l : List Bucket)
    (hub : (l.map Bucket.UpperBound).Pairwise (· ≤ ·))
    (b : Bucket) (hb : l.getLast? = some b) :
    ∀ x ∈ l, x.UpperBound ≤ b.UpperBound := by
  induction l with
  | nil => intro x hx; simp at hx
  | cons a t ih =>
    intro x hx
    rw [List.map_cons, List.pairwise_cons] at hub
    cases t with
    | nil =>
      rw [List.getLast?_singleton, Option.some_inj] at hb
      cases hb
      rcases List.mem_singleton.mp hx with rfl
      exact le_refl _
    | cons y ys =>
      rw [List.getLast?_cons_cons] at hb
      rcases List.mem_cons.mp hx with rfl | hx2
      · exact hub.1 b.UpperBound
          (List.mem_map_of_mem _ (mem_of_getLast?_eq_some hb))
      · exact ih hub.2 hb x hx2

theorem encodeBarsAux_cum (bars : List Bar) :
    ∀ (c : Nat) (s : ℚ), c < 2 ^ 64 →
      (encodeBarsAux c s bars).2.1
        = (c + (bars.map Bar.Count).sum) % 2 ^ 64 := by
  induction bars with
  | nil =>
    intro c s hc
    simp only [encodeBarsAux, List.map_nil, List.sum_nil, Nat.add_zero]
    rw [Nat.mod_eq_of_lt hc]
  | cons bar rest ih =>
    intro c s hc
    rw [List.map_cons, List.sum_cons]
    by_cases h : bar.Count = 0
    · simp only [encodeBarsAux, if_pos h]
      rw [ih c s hc, h, Nat.zero_add]
    · simp only [encodeBarsAux, if_neg h]
      rw [ih _ _ (Nat.mod_lt _ (by norm_num)), Nat.mod_add_mod,
        Nat.add_assoc]

theorem barsToPromHistogram_count (bars : List Bar)
    (hS : (bars.map Bar.Count).sum < 2 ^ 64) :
    (barsToPromHistogram bars).SampleCount = (bars.map Bar.Count).sum := by
  show (encodeBarsAux 0 0 bars).2.1 = _
  rw [encodeBarsAux_cum bars 0 0 (by norm_num)]
  rw [Nat.zero_add, Nat.mod_eq_of_lt hS]

theorem barsToPromHistogram_bucket_ne_nil (bars : List Bar)
    (hS : (bars.map Bar.Count).sum < 2 ^ 64)
    (hT : (barsToPromHistogram bars).SampleCount ≠ 0) :
    (barsToPromHistogram bars).Bucket ≠ [] := by
  intro hnil
  apply hT
  rw [barsToPromHistogram_count bars hS]
  apply List.sum_eq_zero
  intro x hx
  rcases List.mem_map.mp hx with ⟨bar, hbar, rfl⟩
  have hmap := encodeBarsAux_map_ub bars 0 0
  have hbnil : (barsToPromHistogram bars).Bucket.map Bucket.UpperBound = [] := by
    rw [hnil]
    rfl
  have : (bars.filter (fun b => b.Count != 0)).map (fun b => (b.To : ℚ)) = [] := by
    rw [← hmap]; exact hbnil
  have hfil : bars.filter (fun b => b.Count != 0) = [] :=
    List.map_eq_nil_iff.mp this
  have := List.filter_eq_nil_iff.mp hfil bar hbar
  simpa using this

end HdrSpec

namespace HdrSpec

theorem barsToPromHistogram_bucket_nil_of_zero (bars : List Bar)
    (hS : (bars.map Bar.Count).sum < 2 ^ 64)
    (hT : (barsToPromHistogram bars).SampleCount = 0) :
    (barsToPromHistogram bars).Bucket = [] := by
  rw [barsToPromHistogram_count bars hS] at hT
  have hfil : bars.filter (fun b => b.Count != 0) = [] := by
    rw [List.filter_eq_nil_iff]
    intro bar hbar
    have : bar.Count = 0 := by
      have := List.sum_eq_zero_iff.mp hT bar.Count (List.mem_map_of_mem _ hbar)
      exact this
    simp [this]
  have hmap2 : (barsToPromHistogram bars).Bucket.map Bucket.UpperBound = [] := by
    show (encodeBarsAux 0 0 bars).1.map Bucket.UpperBound = []
    rw [encodeBarsAux_map_ub bars 0 0, hfil, List.map_nil]
  exact List.map_eq_nil_iff.mp hmap2

/-- C7: over any list encoded by the exposition encoder from ascending bars
(whose counts fit `uint64`), `ValueAtQuantileWindowed` is monotone
non-decreasing in the quantile for `q1 ≤ q2 ≤ 1`, at `q = 1` it returns the
maximum emitted bucket upper bound, and with a sample count of zero it
returns the defined value `0` rather than failing. -/
theorem hdr_quantile_contract (bars : List Bar) (q1 q2 : ℚ)
    (hasc : bars.Pairwise (fun a b => a.To < b.To))
    (hS : (bars.map Bar.Count).sum < 2 ^ 64)
    (h12 : q1 ≤ q2) (h21 : q2 ≤ 1) :
    ValueAtQuantileWindowed (barsToPromHistogram bars) q1
      ≤ ValueAtQuantileWindowed (barsToPromHistogram bars) q2 ∧
    ((barsToPromHistogram bars).SampleCount = 0 →
      ValueAtQuantileWindowed (barsToPromHistogram bars) q1 = 0) ∧
    ∀ b ∈ (barsToPromHistogram bars).Bucket,
      b.UpperBound ≤ ValueAtQuantileWindowed (barsToPromHistogram bars) 1 := by
  by_cases hT : (barsToPromHistogram bars).SampleCount = 0
  · have hz : ∀ q : ℚ,
        ValueAtQuantileWindowed (barsToPromHistogram bars) q = 0 := by
      intro q
      unfold ValueAtQuantileWindowed
      rw [if_pos hT]
    have hnil := barsToPromHistogram_bucket_nil_of_zero bars hS hT
    refine ⟨by rw [hz, hz], fun _ => hz q1, ?_⟩
    intro b hb
    rw [hnil] at hb
    simp at hb
  · have hpos : (0 : ℚ) < ((barsToPromHistogram bars).SampleCount : ℚ) := by
      have := Nat.pos_of_ne_zero hT
      exact_mod_cast this
    have hub : ((barsToPromHistogram bars).Bucket.map
        Bucket.UpperBound).Pairwise (· ≤ ·) :=
      List.Pairwise.imp (fun hab => le_of_lt hab)
        (barsToPromHistogram_ub_pairwise bars hasc)
    have hbne := barsToPromHistogram_bucket_ne_nil bars hS hT
    have hlast : (barsToPromHistogram bars).Bucket.getLast? =
        some ((barsToPromHistogram bars).Bucket.getLast hbne) :=
      List.getLast?_eq_getLast _ hbne
    have hlastcum : ((barsToPromHistogram bars).Bucket.getLast
          hbne).CumulativeCount
        = (barsToPromHistogram bars).SampleCount :=
      encodeBarsAux_getLast bars 0 0 _ hlast
    have hfrac : ((((barsToPromHistogram bars).Bucket.getLast
          hbne).CumulativeCount : ℚ))
        / ((barsToPromHistogram bars).SampleCount : ℚ) = 1 := by
      rw [hlastcum]
      exact div_self (ne_of_gt hpos)
    have hsat : ∀ q : ℚ, q ≤ 1 →
        (fun b : Bucket => decide (q ≤ (b.CumulativeCount : ℚ)
            / ((barsToPromHistogram bars).SampleCount : ℚ)))
          ((barsToPromHistogram bars).Bucket.getLast hbne) = true := by
      intro q hq
      simp only [decide_eq_true_iff]
      rw [hfrac]
      exact hq
    obtain ⟨b1, hb1⟩ :=
      find_of_getLast_sat (barsToPromHistogram bars).Bucket
        (fun b : Bucket => decide (q1 ≤ (b.CumulativeCount : ℚ)
          / ((barsToPromHistogram bars).SampleCount : ℚ)))
        _ hlast (hsat q1 (le_trans h12 h21))
    obtain ⟨b2, hb2⟩ :=
      find_of_getLast_sat (barsToPromHistogram bars).Bucket
        (fun b : Bucket => decide (q2 ≤ (b.CumulativeCount : ℚ)
          / ((barsToPromHistogram bars).SampleCount : ℚ)))
        _ hlast (hsat q2 h21)
    have hv1 : ValueAtQuantileWindowed (barsToPromHistogram bars) q1
        = b1.UpperBound := by
      unfold ValueAtQuantileWindowed
      rw [if_neg hT, hb1]
    have hv2 : ValueAtQuantileWindowed (barsToPromHistogram bars) q2
        = b2.UpperBound := by
      unfold ValueAtQuantileWindowed
      rw [if_neg hT, hb2]
    refine ⟨?_, fun h0 => absurd h0 hT, ?_⟩
    · rw [hv1, hv2]
      refine find_sorted_ub_le _ _ _ ?_ hub b1 b2 hb1 hb2
      intro b hbp
      simp only [decide_eq_true_iff] at hbp ⊢
      exact le_trans h12 hbp
    · have hfind1 : (barsToPromHistogram bars).Bucket.find?
          (fun b : Bucket => decide ((1 : ℚ) ≤ (b.CumulativeCount : ℚ)
            / ((barsToPromHistogram bars).SampleCount : ℚ)))
          = some ((barsToPromHistogram bars).Bucket.getLast hbne) := by
        refine find_total_eq_getLast _
          ((barsToPromHistogram bars).SampleCount)
          (encodeBarsAux_cum_pairwise bars 0 0 (by omega)) _ ?_ _
          hlast hlastcum
        intro x
        simp only [decide_eq_true_iff]
        rw [one_le_div hpos]
        exact Nat.cast_le
      intro b hb
      have hv : ValueAtQuantileWindowed (barsToPromHistogram bars) 1
          = ((barsToPromHistogram bars).Bucket.getLast hbne).UpperBound := by
        unfold ValueAtQuantileWindowed
        rw [if_neg hT, hfind1]
      rw [hv]
      exact getLast_ub_max _ hub _ hlast b hb

/-- C7 witness: for the single-bar list `[(3, 3, 1)]`, the quantile lookup is
monotone from `q = 0` to `q = 1`, the zero-count case is vacuous, and every
bucket's upper bound is at most the value at `q = 1`. -/
theorem hdr_quantile_contract_witness :
    ValueAtQuantileWindowed (barsToPromHistogram [⟨3, 3, 1⟩]) 0
      ≤ ValueAtQuantileWindowed (barsToPromHistogram [⟨3, 3, 1⟩]) 1 ∧
    ((barsToPromHistogram [⟨3, 3, 1⟩]).SampleCount = 0 →
      ValueAtQuantileWindowed (barsToPromHistogram [⟨3, 3, 1⟩]) 0 = 0) ∧
    ∀ b ∈ (barsToPromHistogram [⟨3, 3, 1⟩]).Bucket,
      b.UpperBound ≤ ValueAtQuantileWindowed (barsToPromHistogram [⟨3, 3, 1⟩]) 1 :=
  hdr_quantile_contract [⟨3, 3, 1⟩] 0 1 (by simp) (by decide)
    zero_le_one (le_refl 1)

end HdrSpec
